import Mathlib

/-!
A shallow embedding, over `List Char`, of the markup-conversion core of
`txt2pdf.py`, together with theorems about its behaviour.

Strings are modelled as `List Char`.  The file-read and language-detection
collaborators of `preprocess_input` are modelled as explicit function
parameters (`read`, `detect`).  The two diagnostics that the program prints to
standard error (the unfinished-emphasis warning and the unsupported-language
message) are modelled as `Bool` components of the corresponding results.

All recursive definitions are structural or fueled (with provably sufficient
fuel), so every function evaluates on concrete inputs by `decide` / `rfl`.
-/

set_option maxRecDepth 10000

namespace Txt2pdf

/-- Python `content.replace(target, repl)` for a one-character `target`
(txt2pdf.py lines 48, 50, 51): every occurrence of `target` is replaced by
`repl`, scanning left to right. -/
def replaceChar (target : Char) (repl : List Char) : List Char → List Char
  | [] => []
  | c :: rest =>
    if c = target then repl ++ replaceChar target repl rest
    else c :: replaceChar target repl rest

/-- Python `content.replace(' - ', ' -- ')` (txt2pdf.py line 49): leftmost,
non-overlapping replacement of the three-character needle `" - "` by `" -- "`,
continuing after each replaced occurrence. -/
def dashSub : List Char → List Char
  | ' ' :: '-' :: ' ' :: rest => ' ' :: '-' :: '-' :: ' ' :: dashSub rest
  | c :: rest => c :: dashSub rest
  | [] => []

/-- Python `re.sub(r"\n- ", r"\n-- ", content)` (txt2pdf.py line 53): a dash
and a blank right after a line break become a double dash. -/
def lineDashSub : List Char → List Char
  | '\n' :: '-' :: ' ' :: rest => '\n' :: '-' :: '-' :: ' ' :: lineDashSub rest
  | c :: rest => c :: lineDashSub rest
  | [] => []

/-- Helper for the non-greedy regex `\[\[.*?\]\]` of txt2pdf.py line 52: given
the text just after an opening `[[`, return the remainder after the nearest
`]]`, provided no newline comes first (in Python, `.` does not match a
newline, so a match never spans lines). -/
def scanClose : List Char → Option (List Char)
  | [] => none
  | c :: rest =>
    if c = ']' ∧ rest.head? = some ']' then some rest.tail
    else if c = '\n' then none
    else scanClose rest

/-- Fueled evaluator for `re.sub(r'\[\[.*?\]\]', '', content)` (txt2pdf.py
line 52).  At a position where `[[` matches and a closing `]]` follows with no
intervening newline, the whole span is deleted and scanning resumes after it;
otherwise the scan advances one character (the regex engine retries at the
next start position).  Each step consumes at least one character of the text,
so fuel `s.length` (see `removeComments`) is always sufficient. -/
def removeCommentsFuel : Nat → List Char → List Char
  | 0, s => s
  | _ + 1, [] => []
  | fuel + 1, c :: rest =>
    if c = '[' ∧ rest.head? = some '[' then
      match scanClose rest.tail with
      | some rem => removeCommentsFuel fuel rem
      | none => c :: removeCommentsFuel fuel rest
    else c :: removeCommentsFuel fuel rest

/-- `re.sub(r'\[\[.*?\]\]', '', content)` of txt2pdf.py line 52. -/
def removeComments (s : List Char) : List Char :=
  removeCommentsFuel s.length s

/-- txt2pdf.py line 42. -/
def TEX_ITALIC_PRE_STR : List Char := "\\emph\x7b".toList

/-- txt2pdf.py line 43. -/
def TEX_ITALIC_POST_STR : List Char := "\x7d".toList

/-- Python `pos = content.find(target)` followed by the splice
`content[0:pos] + repl + content[pos+1:]` (txt2pdf.py lines 57-67): replace
the leftmost occurrence of `target` by `repl`, or `none` if `target` does not
occur (`find` returned `-1`, ending the loop). -/
def spliceFirst (target : Char) (repl : List Char) : List Char → Option (List Char)
  | [] => none
  | c :: rest =>
    if c = target then some (repl ++ rest)
    else (spliceFirst target repl rest).map (fun t => c :: t)

/-- Result of the emphasis loop of txt2pdf.py lines 56-67: the rewritten text,
the final `emphasized_text_state`, and the number of replacements made with
`TEX_ITALIC_PRE_STR` (`npre`) and with `TEX_ITALIC_POST_STR` (`npost`); the
loop ran `npre + npost` times. -/
structure EmphResult where
  text : List Char
  state : Bool
  npre : Nat
  npost : Nat
deriving Repr, DecidableEq

/-- Fueled form of the while-loop of txt2pdf.py lines 56-67.  Each iteration
replaces the leftmost underscore (alternating between the opening and closing
emphasis markers, neither of which contains an underscore), so the number of
underscores decreases by one per iteration and fuel `s.count '_'` (see
`emphasisLoop`) is always sufficient. -/
def emphasisLoopFuel : Nat → List Char → Bool → EmphResult
  | 0, s, state => ⟨s, state, 0, 0⟩
  | fuel + 1, s, state =>
    match spliceFirst '_' (if state then TEX_ITALIC_POST_STR else TEX_ITALIC_PRE_STR) s with
    | none => ⟨s, state, 0, 0⟩
    | some s2 =>
      let r := emphasisLoopFuel fuel s2 (!state)
      if state then ⟨r.text, r.state, r.npre, r.npost + 1⟩
      else ⟨r.text, r.state, r.npre + 1, r.npost⟩

/-- The while-loop of txt2pdf.py lines 56-67, entered with
`emphasized_text_state = state`. -/
def emphasisLoop (s : List Char) (state : Bool) : EmphResult :=
  emphasisLoopFuel (s.count '_') s state

/-- Python `content.splitlines()` helper: split at every `'\n'`. -/
def splitOnNl : List Char → List (List Char)
  | [] => [[]]
  | c :: rest =>
    if c = '\n' then [] :: splitOnNl rest
    else
      match splitOnNl rest with
      | [] => [[c]]
      | l :: ls => (c :: l) :: ls

/-- Python `content.splitlines()` (txt2pdf.py line 71) for `'\n'`-separated
text (the input files are read in universal-newlines mode, so `'\n'` is the
only line terminator): split at every newline, without a trailing empty line
for text ending in `'\n'`. -/
def splitlines (s : List Char) : List (List Char) :=
  let parts := splitOnNl s
  if parts.getLastD [] = [] then parts.dropLast else parts

/-- Python `str.isspace` on the ASCII whitespace characters, as used by
`str.lstrip()` in txt2pdf.py lines 84 and 89. -/
def pyIsSpace (c : Char) : Bool :=
  c = ' ' || c = '\t' || c = '\n' || c = '\r' || c = '\x0b' || c = '\x0c'

/-- Python `paragraph.lstrip()` (txt2pdf.py lines 84, 89). -/
def pyLstrip (s : List Char) : List Char := s.dropWhile pyIsSpace

def spaces4 : List Char := "    ".toList

def quoteMark : List Char := "> ".toList

def beginVerseStr : List Char := "\\begin\x7bverse\x7d".toList

def endVerseStr : List Char := "\\end\x7bverse\x7d".toList

def beginQuoteStr : List Char := "\\begin\x7bquote\x7d".toList

def endQuoteStr : List Char := "\\end\x7bquote\x7d".toList

def lineBreakStr : List Char := "\\\\".toList

def sceneBreakStr : List Char := "*".toList

def vspaceStr : List Char := "\\vspace\x7b6mm\x7d".toList

/-- One iteration of the paragraph loop of txt2pdf.py lines 79-113: given the
current paragraph and the incoming `verse` and `quote` flags, return the list
of paragraphs appended during this iteration and the outgoing flags. -/
def blockStep (paragraph : List Char) (verse quote : Bool) :
    List (List Char) × Bool × Bool :=
  if paragraph.take 4 = spaces4 then
    if verse then ([pyLstrip paragraph ++ lineBreakStr], true, quote)
    else ([beginVerseStr, pyLstrip paragraph ++ lineBreakStr], true, quote)
  else
    let verseOut : List (List Char) := if verse then [endVerseStr] else []
    if paragraph.take 2 = quoteMark then
      if quote then (verseOut ++ [lineBreakStr ++ paragraph.drop 2], false, true)
      else (verseOut ++ [beginQuoteStr, paragraph.drop 2], false, true)
    else
      let quoteOut : List (List Char) := if quote then [endQuoteStr] else []
      if paragraph = sceneBreakStr then (verseOut ++ quoteOut ++ [vspaceStr], false, false)
      else (verseOut ++ quoteOut ++ [paragraph], false, false)

/-- The paragraph loop of txt2pdf.py lines 77-113: fold `blockStep` over the
paragraphs, starting from flags `verse` and `quote`, returning all appended
paragraphs and the final flags. -/
def blockPass : List (List Char) → Bool → Bool → List (List Char) × Bool × Bool
  | [], verse, quote => ([], verse, quote)
  | p :: ps, verse, quote =>
    let s := blockStep p verse quote
    let r := blockPass ps s.2.1 s.2.2
    (s.1 ++ r.1, r.2.1, r.2.2)

/-- Python `"\n".join(new_paragraphs)` (txt2pdf.py line 114). -/
def joinNl : List (List Char) → List Char
  | [] => []
  | [x] => x
  | x :: xs => x ++ '\n' :: joinNl xs

/-- The character-escaping substitutions of txt2pdf.py lines 48-51, in source
order: straight double quotes, ` - `, `&`, `#`. -/
def escapes4 (content : List Char) : List Char :=
  let content := replaceChar '"' ("\x27\x27".toList) content
  let content := dashSub content
  let content := replaceChar '&' ("\\&".toList) content
  replaceChar '#' ("\\#".toList) content

/-- The whole-text rewriting of txt2pdf.py lines 48-53, i.e. everything that
happens to `content` before the emphasis loop: character escaping, comment
removal, and the line-initial dash substitution. -/
def preEmphasisText (content : List Char) : List Char :=
  lineDashSub (removeComments (escapes4 content))

/-- txt2pdf.py lines 45-116.  Returns `((title, body), warn)` where `warn` is
true exactly when the program prints the warning
`"Warning: Unfinished emphasized text marker!"` (line 69).  The source indexes
`paragraphs[0]` and therefore requires non-empty input (spec precondition);
the embedding totalises that single access with `headD`. -/
def convert_simplified_markdown_to_latex (content : List Char) :
    (List Char × List Char) × Bool :=
  let content := preEmphasisText content
  let r := emphasisLoop content false
  let paragraphs := splitlines r.text
  let title := paragraphs.headD []
  let body := (blockPass (paragraphs.drop 1) false false).1
  ((title, joinNl body), r.state)

/-- One entry of `metadata['chapters']` (txt2pdf.py line 148). -/
structure ChapterMeta where
  title : List Char
  content : List Char
deriving Repr, DecidableEq

/-- The `metadata` dictionary built by `preprocess_input` (txt2pdf.py
lines 120-161). -/
structure DocMetadata where
  title : List Char
  author : List Char
  multiple_chapters : Bool
  wide_line_spacing : Bool
  chapters : List ChapterMeta
  language : Option (List Char)
deriving Repr, DecidableEq

/-- The argparse result consumed by `preprocess_input` (txt2pdf.py
lines 193-200). -/
structure PyArgs where
  sources : List (List Char)
  title : List (List Char)
  author : List (List Char)
  basepath : Option (List Char)
  wide_line_spacing : Bool

/-- Python `os.path.join(a, b)` (txt2pdf.py line 136), POSIX convention: an
absolute second component wins; otherwise a separator is inserted unless one
is already present. -/
def ospath_join (a b : List Char) : List Char :=
  if b.head? = some '/' then b
  else if a = [] ∨ a.getLast? = some '/' then a ++ b
  else a ++ '/' :: b

/-- Python `' '.join(words)` (txt2pdf.py lines 121-122). -/
def joinSpace : List (List Char) → List Char
  | [] => []
  | [x] => x
  | x :: xs => x ++ ' ' :: joinSpace xs

/-- The per-source loop of `preprocess_input` (txt2pdf.py lines 135-149).  The
file-read collaborator is the function `read` (path to contents, `none` on an
`IOError`); `Except.error path` models raising
`InvalidInputTxtFileException(path)`.  Threads `lang_detect_input` (the
`sample` argument, set from the first successfully read content) and collects
the chapter records in input order. -/
def processSources (read : List Char → Option (List Char)) (basepath : List Char) :
    List (List Char) → Option (List Char) →
      Except (List Char) (Option (List Char) × List ChapterMeta)
  | [], sample => .ok (sample, [])
  | p :: ps, sample =>
    match read (ospath_join basepath p) with
    | none => .error (ospath_join basepath p)
    | some content =>
      let sample2 := match sample with
        | none => some content
        | some s => some s
      let conv := convert_simplified_markdown_to_latex content
      match processSources read basepath ps sample2 with
      | .error e => .error e
      | .ok (smp, chs) => .ok (smp, ⟨conv.1.1, conv.1.2⟩ :: chs)

/-- The language table of txt2pdf.py lines 153-156. -/
def language_dict : List (List Char × List Char) :=
  [("sv".toList, "swedish".toList), ("en".toList, "english".toList)]

/-- txt2pdf.py lines 119-163.  `detect` is the `langdetect.detect`
collaborator; it receives exactly what the Python passes it, namely
`lang_detect_input` (which is `None` only when `sources` is empty).  The
returned `Bool` is true exactly when the program prints the diagnostic
`"Add support for more languages!"` (line 160), which happens iff the detected
code is outside `language_dict` and `language` is set to `None`. -/
def preprocess_input (read : List Char → Option (List Char))
    (detect : Option (List Char) → List Char) (args : PyArgs) :
    Except (List Char) (DocMetadata × Bool) :=
  let basepath := args.basepath.getD ("../".toList)
  match processSources read basepath args.sources none with
  | .error p => .error p
  | .ok (sample, chapters) =>
    let detected := detect sample
    let language := (language_dict.find? (fun kv => kv.1 == detected)).map (fun kv => kv.2)
    .ok ({ title := joinSpace args.title,
           author := joinSpace args.author,
           multiple_chapters := decide (args.sources.length > 1),
           wide_line_spacing := args.wide_line_spacing,
           chapters := chapters,
           language := language }, language.isNone)

/-- Bool-valued substring occurrence test (used to state side conditions on
the comment-removal pass). -/
def containsSeq (pat : List Char) : List Char → Bool
  | [] => pat.isEmpty
  | c :: rest => pat.isPrefixOf (c :: rest) || containsSeq pat rest

/-! Helper lemmas about the block-structure pass. -/

theorem blockPass_nil (v q : Bool) : blockPass [] v q = ([], v, q) := rfl

theorem blockPass_cons (p : List Char) (ps : List (List Char)) (v q : Bool) :
    blockPass (p :: ps) v q =
      ((blockStep p v q).1 ++ (blockPass ps (blockStep p v q).2.1 (blockStep p v q).2.2).1,
        (blockPass ps (blockStep p v q).2.1 (blockStep p v q).2.2).2) := rfl

theorem blockPass_append (xs ys : List (List Char)) (v q : Bool) :
    blockPass (xs ++ ys) v q =
      ((blockPass xs v q).1 ++
          (blockPass ys (blockPass xs v q).2.1 (blockPass xs v q).2.2).1,
        (blockPass ys (blockPass xs v q).2.1 (blockPass xs v q).2.2).2) := by
  induction xs generalizing v q with
  | nil => simp [blockPass]
  | cons p ps ih =>
    simp only [List.cons_append, blockPass_cons, ih, List.append_assoc]

/-- A non-verse line processed with the verse flag set first emits the
verse-closing marker and then behaves exactly as with the flag clear
(txt2pdf.py lines 91-94 fall through to the quote checks). -/
theorem blockStep_endVerse (q0 : List Char) (Q : Bool) (hq : ¬ q0.take 4 = spaces4) :
    blockStep q0 true Q =
      (endVerseStr :: (blockStep q0 false Q).1, (blockStep q0 false Q).2) := by
  cases Q <;> by_cases h2 : q0.take 2 = quoteMark <;> by_cases hs : q0 = sceneBreakStr <;>
    first
      | (subst hs; decide)
      | simp [blockStep, hq, h2, hs]

/-- A line that is neither a verse line nor a quote line always leaves both
block flags clear (txt2pdf.py lines 91-94 and 106-109). -/
theorem blockStep_plain_state (l : List Char) (v q : Bool)
    (h4 : ¬ l.take 4 = spaces4) (h2 : ¬ l.take 2 = quoteMark) :
    (blockStep l v q).2 = (false, false) := by
  cases v <;> cases q <;> by_cases hs : l = sceneBreakStr <;>
    first
      | (subst hs; decide)
      | simp [blockStep, h4, h2, hs]

/-- A quote line cannot be a verse line: its first character is `>`. -/
theorem quote_not_verse (p : List Char) (h : p.take 2 = quoteMark) :
    ¬ p.take 4 = spaces4 := by
  intro h4
  have h24 := congrArg (List.take 2) h4
  rw [List.take_take] at h24
  norm_num at h24
  rw [h] at h24
  exact absurd h24 (by decide)

/-- Claim C9: converting the two-line input `Chapter One` / `He said "hello" -
then left.` yields title `Chapter One` and body
`He said ''hello'' -- then left.` (double quotes become doubled typewriter
apostrophes and the spaced hyphen becomes a double hyphen), with no
emphasis warning and no verse or quote state triggered. -/
theorem C9_theorem :
    convert_simplified_markdown_to_latex
        ("Chapter One\nHe said \"hello\" - then left.".toList)
      = (("Chapter One".toList, "He said \x27\x27hello\x27\x27 -- then left.".toList), false)
    ∧ (blockPass [("He said \x27\x27hello\x27\x27 -- then left.".toList)] false false).2
      = (false, false) := by
  decide

/-- Claim C4 (amended form is not needed; this is the claim as stated): a
verse line processed with the verse flag clear, followed by a non-indented
line, emits the verse-open marker, the left-stripped line with the forced
line-break suffix, and the verse-close marker before the following line's own
markup; and a second consecutive verse line emits only its stripped line with
the line-break suffix, with no re-opening marker. -/
theorem C4_theorem (p q0 p2 : List Char) (rest : List (List Char)) (Q : Bool)
    (hp : p.take 4 = spaces4) (hq : ¬ q0.take 4 = spaces4) (hp2 : p2.take 4 = spaces4) :
    (blockPass (p :: q0 :: rest) false Q).1
      = beginVerseStr :: (pyLstrip p ++ lineBreakStr) :: endVerseStr
          :: (blockPass (q0 :: rest) false Q).1
    ∧ (blockPass (p :: p2 :: rest) false Q).1
      = beginVerseStr :: (pyLstrip p ++ lineBreakStr)
          :: (pyLstrip p2 ++ lineBreakStr) :: (blockPass rest true Q).1 := by
  have hstep : blockStep p false Q = ([beginVerseStr, pyLstrip p ++ lineBreakStr], true, Q) := by
    simp [blockStep, hp]
  have hstep2 : blockStep p2 true Q = ([pyLstrip p2 ++ lineBreakStr], true, Q) := by
    simp [blockStep, hp2]
  constructor
  · rw [blockPass_cons, hstep]
    rw [blockPass_cons q0, blockStep_endVerse q0 Q hq]
    rw [blockPass_cons q0]
    simp
  · rw [blockPass_cons, hstep, blockPass_cons p2, hstep2]
    simp

/-- Claim C4 witness. -/
theorem C4_witness :
    (blockPass (("    a".toList) :: ("b".toList) :: []) false false).1
      = beginVerseStr :: (pyLstrip ("    a".toList) ++ lineBreakStr) :: endVerseStr
          :: (blockPass (("b".toList) :: []) false false).1 :=
  (C4_theorem ("    a".toList) ("b".toList) ("    c".toList) [] false
    (by decide) (by decide) (by decide)).1

/-- Claim C5: a quote line processed with both flags clear, followed by a
second quote line, followed by a plain line, emits the quote-open marker, the
first line with its two-character prefix stripped, the second stripped line
prefixed with the forced line break, the quote-close marker, and then the
plain line itself. -/
theorem C5_theorem (p1 p2 r : List Char) (rest : List (List Char))
    (h1 : p1.take 2 = quoteMark) (h2 : p2.take 2 = quoteMark)
    (hr4 : ¬ r.take 4 = spaces4) (hr2 : ¬ r.take 2 = quoteMark)
    (hrs : r ≠ sceneBreakStr) :
    (blockPass (p1 :: p2 :: r :: rest) false false).1
      = beginQuoteStr :: p1.drop 2 :: (lineBreakStr ++ p2.drop 2)
          :: endQuoteStr :: r :: (blockPass rest false false).1 := by
  have hstep1 : blockStep p1 false false = ([beginQuoteStr, p1.drop 2], false, true) := by
    simp [blockStep, quote_not_verse p1 h1, h1]
  have hstep2 : blockStep p2 false true = ([lineBreakStr ++ p2.drop 2], false, true) := by
    simp [blockStep, quote_not_verse p2 h2, h2]
  have hstep3 : blockStep r false true = ([endQuoteStr, r], false, false) := by
    simp [blockStep, hr4, hr2, hrs]
  rw [blockPass_cons, hstep1, blockPass_cons p2, hstep2, blockPass_cons r, hstep3]
  simp

/-- Claim C5 witness. -/
theorem C5_witness :
    (blockPass (("> quoted".toList) :: ("> more".toList) :: ("x".toList) :: []) false false).1
      = beginQuoteStr :: ("> quoted".toList).drop 2
          :: (lineBreakStr ++ ("> more".toList).drop 2)
          :: endQuoteStr :: ("x".toList) :: (blockPass [] false false).1 :=
  C5_theorem ("> quoted".toList) ("> more".toList) ("x".toList) []
    (by decide) (by decide) (by decide) (by decide) (by decide)

/-- Claim C2, counterexample to the claim as stated: for the chapter
`t` / `    v` (a verse line as the final line) the block pass finishes with
the verse flag still set, and the emitted body contains the verse-open marker
but no verse-close marker at all — the open block is never closed by
`convert_simplified_markdown_to_latex`. -/
theorem C2_counterexample :
    (blockPass [("    v".toList)] false false).2 = (true, false)
    ∧ (convert_simplified_markdown_to_latex ("t\n    v".toList)).1.2
      = "\\begin\x7bverse\x7d\nv\\\\".toList := by
  decide

/-- Claim C2, amended: the `emphasis_open` toggle may be left set (that case
is reported through the non-fatal warning, see claim C1), and the
`in_verse_block` / `in_quote_block` toggles are guaranteed to have returned to
false at the end of the block pass whenever the final body line is neither a
verse line nor a quote line; a verse or quote block still open when the lines
run out is left unclosed. -/
theorem C2_theorem (ps : List (List Char)) (l : List Char)
    (h4 : ¬ l.take 4 = spaces4) (h2 : ¬ l.take 2 = quoteMark) :
    (blockPass (ps ++ [l]) false false).2 = (false, false) := by
  rw [blockPass_append]
  simp only [blockPass_cons, blockPass_nil]
  exact blockStep_plain_state l _ _ h4 h2

/-- Claim C2 witness. -/
theorem C2_witness :
    (blockPass ((("    v".toList) :: []) ++ [("y".toList)]) false false).2 = (false, false) :=
  C2_theorem [("    v".toList)] ("y".toList) (by decide) (by decide)

/-! Lemmas about the emphasis loop. -/

theorem spliceFirst_eq_none (target : Char) (repl s : List Char) :
    spliceFirst target repl s = none ↔ target ∉ s := by
  induction s with
  | nil => simp [spliceFirst]
  | cons c rest ih =>
    by_cases h : c = target
    · subst h
      simp [spliceFirst]
    · simp [spliceFirst, h, ih, Ne.symm h]

/-- Replacing the leftmost occurrence of `target` by a `target`-free
replacement decreases the number of occurrences by exactly one. -/
theorem spliceFirst_count (target : Char) (repl : List Char)
    (hrepl : repl.count target = 0) :
    ∀ s s2, spliceFirst target repl s = some s2 →
      s2.count target + 1 = s.count target := by
  intro s
  induction s with
  | nil => intro s2 h; simp [spliceFirst] at h
  | cons c rest ih =>
    intro s2 h
    by_cases hc : c = target
    · subst hc
      simp [spliceFirst] at h
      subst h
      simp [List.count_append, hrepl, List.count_cons_self]
    · simp [spliceFirst, hc] at h
      obtain ⟨t, ht, rfl⟩ := h
      have := ih t ht
      simp [List.count_cons, Ne.symm hc]
      omega

/-- Full characterisation of the emphasis loop with sufficient fuel, by
induction on the number of underscores `n`: the loop consumes every
underscore, flips the entry state once per underscore, and uses the opening
and closing markers alternately, starting with whichever the entry state
selects. -/
theorem emphasisLoopFuel_spec (n : Nat) :
    ∀ (fuel : Nat) (s : List Char) (state : Bool), s.count '_' = n → n ≤ fuel →
      (emphasisLoopFuel fuel s state).text.count '_' = 0
      ∧ (emphasisLoopFuel fuel s state).state = (state ^^ decide (n % 2 = 1))
      ∧ (emphasisLoopFuel fuel s state).npre = (if state then n / 2 else (n + 1) / 2)
      ∧ (emphasisLoopFuel fuel s state).npost = (if state then (n + 1) / 2 else n / 2) := by
  induction n with
  | zero =>
    intro fuel s state hcount _
    have hnotmem : '_' ∉ s := List.count_eq_zero.mp hcount
    cases state <;> cases fuel <;>
      simp [emphasisLoopFuel, (spliceFirst_eq_none _ _ _).mpr hnotmem, hcount]
  | succ n ih =>
    intro fuel s state hcount hfuel
    cases fuel with
    | zero => omega
    | succ f =>
      have hmem : '_' ∈ s := by
        rw [← List.count_pos_iff]
        omega
      cases state
      · obtain ⟨s2, hs2⟩ : ∃ s2, spliceFirst '_' TEX_ITALIC_PRE_STR s = some s2 := by
          cases h : spliceFirst '_' TEX_ITALIC_PRE_STR s with
          | none => exact absurd ((spliceFirst_eq_none _ _ _).mp h) (by simp [hmem])
          | some t => exact ⟨t, rfl⟩
        have hc2 : s2.count '_' = n := by
          have := spliceFirst_count '_' TEX_ITALIC_PRE_STR (by decide) s s2 hs2
          omega
        obtain ⟨h1, h2, h3, h4⟩ := ih f s2 true hc2 (by omega)
        rcases Nat.mod_two_eq_zero_or_one n with hpar | hpar
        · have hpar1 : (n + 1) % 2 = 1 := by omega
          simp [emphasisLoopFuel, hs2, h1, h2, h3, h4, hpar, hpar1]
          omega
        · have hpar1 : (n + 1) % 2 = 0 := by omega
          simp [emphasisLoopFuel, hs2, h1, h2, h3, h4, hpar, hpar1]
          omega
      · obtain ⟨s2, hs2⟩ : ∃ s2, spliceFirst '_' TEX_ITALIC_POST_STR s = some s2 := by
          cases h : spliceFirst '_' TEX_ITALIC_POST_STR s with
          | none => exact absurd ((spliceFirst_eq_none _ _ _).mp h) (by simp [hmem])
          | some t => exact ⟨t, rfl⟩
        have hc2 : s2.count '_' = n := by
          have := spliceFirst_count '_' TEX_ITALIC_POST_STR (by decide) s s2 hs2
          omega
        obtain ⟨h1, h2, h3, h4⟩ := ih f s2 false hc2 (by omega)
        rcases Nat.mod_two_eq_zero_or_one n with hpar | hpar
        · have hpar1 : (n + 1) % 2 = 1 := by omega
          simp [emphasisLoopFuel, hs2, h1, h2, h3, h4, hpar, hpar1]
          omega
        · have hpar1 : (n + 1) % 2 = 0 := by omega
          simp [emphasisLoopFuel, hs2, h1, h2, h3, h4, hpar, hpar1]
          omega

/-- The characterisation of `emphasisLoopFuel_spec`, specialised to the fuel
actually used by `emphasisLoop`. -/
theorem emphasisLoop_spec (s : List Char) (state : Bool) :
    (emphasisLoop s state).text.count '_' = 0
    ∧ (emphasisLoop s state).state = (state ^^ decide (s.count '_' % 2 = 1))
    ∧ (emphasisLoop s state).npre
        = (if state then s.count '_' / 2 else (s.count '_' + 1) / 2)
    ∧ (emphasisLoop s state).npost
        = (if state then (s.count '_' + 1) / 2 else s.count '_' / 2) :=
  emphasisLoopFuel_spec (s.count '_') (s.count '_') s state rfl le_rfl

/-- Claim C10: the underscore-rewriting loop terminates because each iteration
replaces the leftmost underscore by a replacement string containing no
underscore; the underscore count strictly decreases by one per iteration
(last conjunct), and the loop runs exactly `npre + npost = count` times. -/
theorem C10_theorem (s : List Char) (state : Bool) :
    (emphasisLoop s state).npre + (emphasisLoop s state).npost = s.count '_'
    ∧ TEX_ITALIC_PRE_STR.count '_' = 0
    ∧ TEX_ITALIC_POST_STR.count '_' = 0
    ∧ (spliceFirst '_' (if state then TEX_ITALIC_POST_STR else TEX_ITALIC_PRE_STR) s).elim
        True (fun s2 => s2.count '_' + 1 = s.count '_') := by
  obtain ⟨h1, h2, h3, h4⟩ := emphasisLoop_spec s state
  refine ⟨?_, by decide, by decide, ?_⟩
  · cases state <;> simp only [h3, h4] <;> simp <;> omega
  · cases h : spliceFirst '_' (if state then TEX_ITALIC_POST_STR else TEX_ITALIC_PRE_STR) s with
    | none => simp
    | some t =>
      simp only [Option.elim]
      exact spliceFirst_count '_' _ (by cases state <;> decide) s t h

/-! Lemmas about line splitting, joining, and the characters that the block
pass can emit, needed to show that no underscore survives into the output. -/

theorem splitOnNl_ne_nil (s : List Char) : splitOnNl s ≠ [] := by
  cases s with
  | nil => simp [splitOnNl]
  | cons c rest =>
    by_cases h : c = '\n'
    · simp [splitOnNl, h]
    · simp only [splitOnNl, if_neg h]
      cases splitOnNl rest <;> simp

theorem splitOnNl_cons_of_ne (c : Char) (rest : List Char) (h : ¬ c = '\n') :
    splitOnNl (c :: rest)
      = (c :: (splitOnNl rest).headD []) :: (splitOnNl rest).tail := by
  simp only [splitOnNl, if_neg h]
  cases hh : splitOnNl rest with
  | nil => exact absurd hh (splitOnNl_ne_nil rest)
  | cons l ls => simp

theorem mem_of_mem_splitOnNl (s : List Char) :
    ∀ l ∈ splitOnNl s, ∀ c ∈ l, c ∈ s := by
  induction s with
  | nil => simp [splitOnNl]
  | cons a rest ih =>
    by_cases ha : a = '\n'
    · subst ha
      intro l hl c hc
      rw [show splitOnNl ('\n' :: rest) = [] :: splitOnNl rest from by
        simp [splitOnNl]] at hl
      rw [List.mem_cons] at hl
      rcases hl with rfl | hl
      · cases hc
      · exact List.mem_cons_of_mem _ (ih l hl c hc)
    · intro l hl c hc
      rw [splitOnNl_cons_of_ne _ _ ha] at hl
      rw [List.mem_cons] at hl
      rcases hl with rfl | hl
      · rw [List.mem_cons] at hc
        rcases hc with rfl | hc
        · exact List.mem_cons_self _ _
        · have hmem : (splitOnNl rest).headD [] ∈ splitOnNl rest := by
            cases hh : splitOnNl rest with
            | nil => exact absurd hh (splitOnNl_ne_nil rest)
            | cons x xs => simp
          exact List.mem_cons_of_mem _ (ih _ hmem c hc)
      · exact List.mem_cons_of_mem _ (ih l (List.mem_of_mem_tail hl) c hc)

theorem mem_of_mem_splitlines (s l : List Char) (hl : l ∈ splitlines s) :
    ∀ c ∈ l, c ∈ s := by
  have hl2 : l ∈ splitOnNl s := by
    by_cases hcond : (splitOnNl s).getLast?.getD [] = []
    · have heq : splitlines s = (splitOnNl s).dropLast := by
        simp [splitlines, hcond]
      rw [heq] at hl
      exact List.dropLast_subset _ hl
    · have heq : splitlines s = splitOnNl s := by
        simp [splitlines, hcond]
      rw [heq] at hl
      exact hl
  exact mem_of_mem_splitOnNl s l hl2

theorem mem_joinNl (ls : List (List Char)) (c : Char) (hc : c ∈ joinNl ls) :
    c = '\n' ∨ ∃ l ∈ ls, c ∈ l := by
  induction ls with
  | nil => cases hc
  | cons x xs ih =>
    cases xs with
    | nil => exact Or.inr ⟨x, by simp, hc⟩
    | cons y ys =>
      rcases List.mem_append.mp hc with h | h
      · exact Or.inr ⟨x, by simp, h⟩
      · rw [List.mem_cons] at h
        rcases h with rfl | h
        · exact Or.inl rfl
        · rcases ih h with h | ⟨l, hls, hcl⟩
          · exact Or.inl h
          · exact Or.inr ⟨l, List.mem_cons_of_mem _ hls, hcl⟩

/-- Every line emitted by one block-pass iteration is either a fixed marker
or built from the input line by `lstrip`, a 2-character drop, or verbatim. -/
theorem blockStep_mem (p : List Char) (v q : Bool) :
    ∀ l ∈ (blockStep p v q).1,
      l = beginVerseStr ∨ l = endVerseStr ∨ l = beginQuoteStr ∨ l = endQuoteStr
      ∨ l = vspaceStr ∨ l = pyLstrip p ++ lineBreakStr
      ∨ l = lineBreakStr ++ p.drop 2 ∨ l = p.drop 2 ∨ l = p := by
  intro l hl
  by_cases hs : p = sceneBreakStr
  · subst hs
    have e1 : ¬ sceneBreakStr.take 4 = spaces4 := by decide
    have e2 : ¬ sceneBreakStr.take 2 = quoteMark := by decide
    cases v <;> cases q <;> simp [blockStep, e1, e2] at hl <;> tauto
  · by_cases h4 : p.take 4 = spaces4 <;> by_cases h2 : p.take 2 = quoteMark <;>
      cases v <;> cases q <;> simp [blockStep, h4, h2, hs] at hl <;> tauto

theorem no_underscore_blockLine (p l : List Char) (hp : '_' ∉ p)
    (hl : l = beginVerseStr ∨ l = endVerseStr ∨ l = beginQuoteStr ∨ l = endQuoteStr
      ∨ l = vspaceStr ∨ l = pyLstrip p ++ lineBreakStr
      ∨ l = lineBreakStr ++ p.drop 2 ∨ l = p.drop 2 ∨ l = p) : '_' ∉ l := by
  have hdropW : '_' ∉ pyLstrip p := fun hc => hp ((List.dropWhile_suffix _).subset hc)
  have hdrop2 : '_' ∉ p.drop 2 := fun hc => hp (List.drop_subset _ _ hc)
  have hlb : '_' ∉ lineBreakStr := by decide
  rcases hl with rfl | rfl | rfl | rfl | rfl | rfl | rfl | rfl | rfl
  · decide
  · decide
  · decide
  · decide
  · decide
  · intro hc
    rcases List.mem_append.mp hc with h | h
    · exact hdropW h
    · exact hlb h
  · intro hc
    rcases List.mem_append.mp hc with h | h
    · exact hlb h
    · exact hdrop2 h
  · exact hdrop2
  · exact hp

theorem blockPass_no_underscore (ps : List (List Char)) (v q : Bool)
    (h : ∀ p ∈ ps, '_' ∉ p) : ∀ l ∈ (blockPass ps v q).1, '_' ∉ l := by
  induction ps generalizing v q with
  | nil => simp [blockPass]
  | cons p ps ih =>
    intro l hl
    rw [blockPass_cons] at hl
    rcases List.mem_append.mp hl with hl | hl
    · exact no_underscore_blockLine p l (h p (by simp))
        (blockStep_mem p v q l hl)
    · exact ih _ _ (fun x hx => h x (List.mem_cons_of_mem _ hx)) l hl

/-- Claim C1, counterexample to the claim as stated: the chapter text
`x` / `[[_]]` contains an odd number (one) of underscores, yet no
emphasis-warning diagnostic is emitted, because comment-span removal deletes
the underscore before the emphasis pass runs. -/
theorem C1_counterexample :
    (("x\n[[_]]".toList).count '_') % 2 = 1
    ∧ (convert_simplified_markdown_to_latex ("x\n[[_]]".toList)).2 = false := by
  decide

/-- Claim C1, amended: underscore counts must be measured on the text reaching
the emphasis pass, i.e. after the character escapes (which preserve the
underscore count) and comment-span removal (which can delete underscores).
With `n` that count: the title and body contain no remaining underscore; the
warning diagnostic is emitted (exactly once, it is a single `if`) iff `n` is
odd; and the opening/closing markers alternate and balance: the loop makes
`(n+1)/2` opening-marker and `n/2` closing-marker replacements, which are
equal when `n` is even and differ by exactly one unmatched opener when `n` is
odd. -/
theorem C1_theorem (content : List Char) :
    ('_' ∉ (convert_simplified_markdown_to_latex content).1.1)
    ∧ ('_' ∉ (convert_simplified_markdown_to_latex content).1.2)
    ∧ ((convert_simplified_markdown_to_latex content).2 = true
        ↔ (preEmphasisText content).count '_' % 2 = 1)
    ∧ (emphasisLoop (preEmphasisText content) false).npre
        = ((preEmphasisText content).count '_' + 1) / 2
    ∧ (emphasisLoop (preEmphasisText content) false).npost
        = (preEmphasisText content).count '_' / 2 := by
  obtain ⟨h1, h2, h3, h4⟩ := emphasisLoop_spec (preEmphasisText content) false
  have htmem : '_' ∉ (emphasisLoop (preEmphasisText content) false).text :=
    List.count_eq_zero.mp h1
  have hlines : ∀ l ∈ splitlines (emphasisLoop (preEmphasisText content) false).text,
      '_' ∉ l := by
    intro l hl hc
    exact htmem (mem_of_mem_splitlines _ l hl '_' hc)
  refine ⟨?_, ?_, ?_, by simpa using h3, by simpa using h4⟩
  · show '_' ∉ (splitlines (emphasisLoop (preEmphasisText content) false).text).headD []
    cases hh : splitlines (emphasisLoop (preEmphasisText content) false).text with
    | nil => simp
    | cons x xs => exact hlines x (by rw [hh]; exact List.mem_cons_self _ _)
  · show '_' ∉ joinNl (blockPass
      ((splitlines (emphasisLoop (preEmphasisText content) false).text).drop 1)
      false false).1
    intro hc
    rcases mem_joinNl _ _ hc with h | ⟨l, hls, hcl⟩
    · cases h
    · exact blockPass_no_underscore _ false false
        (fun x hx => hlines x (List.drop_subset _ _ hx)) l hls hcl
  · show (emphasisLoop (preEmphasisText content) false).state = true ↔ _
    rw [h2]
    cases hdec : decide ((preEmphasisText content).count '_' % 2 = 1) <;>
      simp_all

/-! Lemmas about the chapter-aggregation loop. -/

/-- If every path before `p` reads successfully and `p` fails to read, the
aggregation loop aborts with exactly the joined failing path, regardless of
`p`'s position and of the pending sample state. -/
theorem processSources_fail (read : List Char → Option (List Char))
    (basepath : List Char) (post : List (List Char)) (p : List Char)
    (hfail : read (ospath_join basepath p) = none) :
    ∀ (pre : List (List Char)) (sample : Option (List Char)),
      (∀ q ∈ pre, ∃ c, read (ospath_join basepath q) = some c) →
      processSources read basepath (pre ++ p :: post) sample
        = .error (ospath_join basepath p) := by
  intro pre
  induction pre with
  | nil =>
    intro sample _
    simp [processSources, hfail]
  | cons q pre ih =>
    intro sample hok
    obtain ⟨c, hc⟩ := hok q (by simp)
    simp only [List.cons_append, processSources, hc, List.append_eq]
    rw [ih _ (fun x hx => hok x (List.mem_cons_of_mem _ hx))]

/-- Once the language sample is set it is never overwritten by later
chapters. -/
theorem processSources_sample_some (read : List Char → Option (List Char))
    (basepath : List Char) :
    ∀ (ps : List (List Char)) (c : List Char)
      (res : Option (List Char) × List ChapterMeta),
      processSources read basepath ps (some c) = .ok res → res.1 = some c := by
  intro ps
  induction ps with
  | nil =>
    intro c res h
    obtain ⟨rsmp, rchs⟩ := res
    simp [processSources] at h
    exact (h.1).symm
  | cons p ps ih =>
    intro c res h
    obtain ⟨rsmp, rchs⟩ := res
    simp only [processSources] at h
    cases h1 : read (ospath_join basepath p) with
    | none => rw [h1] at h; simp at h
    | some content =>
      rw [h1] at h
      cases h2 : processSources read basepath ps (some c) with
      | error e => rw [h2] at h; simp at h
      | ok res2 =>
        obtain ⟨smp, chs⟩ := res2
        rw [h2] at h
        simp at h
        rw [← h.1]
        exact ih c (smp, chs) h2

/-- On success, the language sample is the first source's raw content. -/
theorem processSources_cons_ok (read : List Char → Option (List Char))
    (basepath : List Char) (s0 : List Char) (rest : List (List Char)) (c0 : List Char)
    (hread : read (ospath_join basepath s0) = some c0)
    (res : Option (List Char) × List ChapterMeta)
    (h : processSources read basepath (s0 :: rest) none = .ok res) : res.1 = some c0 := by
  obtain ⟨rsmp, rchs⟩ := res
  simp only [processSources, hread] at h
  cases h2 : processSources read basepath rest (some c0) with
  | error e => rw [h2] at h; simp at h
  | ok res2 =>
    obtain ⟨smp, chs⟩ := res2
    rw [h2] at h
    simp at h
    rw [← h.1]
    exact processSources_sample_some read basepath rest c0 (smp, chs) h2

/-- Claim C8: if reading the path `p` fails while every earlier listed path
reads successfully, `preprocess_input` raises `InvalidInputTxtFileException`
(modelled as `Except.error`) carrying the failing joined path, whatever `p`'s
position in the source list; no metadata is returned, so no later chapter is
processed and no partial result escapes. -/
theorem C8_theorem (read : List Char → Option (List Char))
    (detect : Option (List Char) → List Char) (args : PyArgs)
    (pre post : List (List Char)) (p : List Char)
    (hsrc : args.sources = pre ++ p :: post)
    (hpre : ∀ q ∈ pre, ∃ c, read (ospath_join (args.basepath.getD ("../".toList)) q) = some c)
    (hfail : read (ospath_join (args.basepath.getD ("../".toList)) p) = none) :
    preprocess_input read detect args
      = .error (ospath_join (args.basepath.getD ("../".toList)) p) := by
  simp only [preprocess_input, hsrc]
  rw [processSources_fail read _ post p hfail pre none hpre]

/-- Claim C8 witness. -/
theorem C8_witness :
    preprocess_input
      (fun path => if path = "../a".toList then some ("t\nx".toList) else none)
      (fun _ => "en".toList)
      ⟨[("a".toList), ("b".toList)], [], [], none, false⟩
      = .error ("../b".toList) := by
  have h := C8_theorem
    (fun path => if path = "../a".toList then some ("t\nx".toList) else none)
    (fun _ => "en".toList)
    ⟨[("a".toList), ("b".toList)], [], [], none, false⟩
    [("a".toList)] [] ("b".toList) rfl
    (by
      intro q hq
      rw [List.mem_singleton] at hq
      subst hq
      exact ⟨("t\nx".toList), by decide⟩)
    (by decide)
  simpa using h

/-- Claim C7: the language-detection sample passed to the detector is exactly
the first chapter's raw content (whatever the other chapters are), and the
detector's code is mapped through the two-entry table only: `sv` gives
`swedish`, `en` gives `english`, and any other code gives `language = none`
together with the unsupported-language diagnostic, the run still returning
`ok`. -/
theorem C7_theorem (read : List Char → Option (List Char))
    (detect : Option (List Char) → List Char) (args : PyArgs)
    (s0 : List Char) (rest : List (List Char)) (c0 : List Char)
    (m : DocMetadata) (w : Bool)
    (hsrc : args.sources = s0 :: rest)
    (hread : read (ospath_join (args.basepath.getD ("../".toList)) s0) = some c0)
    (hok : preprocess_input read detect args = .ok (m, w)) :
    (detect (some c0) = "sv".toList → m.language = some ("swedish".toList) ∧ w = false)
    ∧ (detect (some c0) = "en".toList → m.language = some ("english".toList) ∧ w = false)
    ∧ (¬ detect (some c0) = "sv".toList → ¬ detect (some c0) = "en".toList →
        m.language = none ∧ w = true) := by
  simp only [preprocess_input, hsrc] at hok
  cases hres : processSources read (args.basepath.getD ("../".toList)) (s0 :: rest) none with
  | error e => rw [hres] at hok; simp at hok
  | ok res =>
    rw [hres] at hok
    obtain ⟨sample, chapters⟩ := res
    have hsample : sample = some c0 := by
      have := processSources_cons_ok read _ s0 rest c0 hread (sample, chapters) hres
      simpa using this
    subst hsample
    simp only [Except.ok.injEq, Prod.mk.injEq] at hok
    obtain ⟨hm, hw⟩ := hok
    have hlang : m.language
        = (language_dict.find? (fun kv => kv.1 == detect (some c0))).map (fun kv => kv.2) := by
      rw [← hm]
    have hwval : w
        = ((language_dict.find? (fun kv => kv.1 == detect (some c0))).map
            (fun kv => kv.2)).isNone := by
      rw [← hw]
    refine ⟨?_, ?_, ?_⟩
    · intro hd
      rw [hlang, hwval, hd]
      decide
    · intro hd
      rw [hlang, hwval, hd]
      decide
    · intro hd1 hd2
      have hfind : language_dict.find? (fun kv => kv.1 == detect (some c0)) = none := by
        have e1 : ((['s', 'v'] : List Char) == detect (some c0)) = false := by
          rw [beq_eq_false_iff_ne]
          exact fun hh => hd1 hh.symm
        have e2 : ((['e', 'n'] : List Char) == detect (some c0)) = false := by
          rw [beq_eq_false_iff_ne]
          exact fun hh => hd2 hh.symm
        simp [language_dict, List.find?, e1, e2]
      rw [hlang, hwval, hfind]
      simp

/-- Claim C7 witness. -/
theorem C7_witness :
    ({ title := [], author := [], multiple_chapters := false, wide_line_spacing := false,
       chapters := [⟨"t".toList, "x".toList⟩],
       language := some ("english".toList) } : DocMetadata).language
        = some ("english".toList)
    ∧ (false : Bool) = false :=
  (C7_theorem
    (fun path => if path = "../a".toList then some ("t\nx".toList) else none)
    (fun _ => "en".toList)
    ⟨[("a".toList)], [], [], none, false⟩
    ("a".toList) [] ("t\nx".toList)
    ({ title := [], author := [], multiple_chapters := false, wide_line_spacing := false,
       chapters := [⟨"t".toList, "x".toList⟩],
       language := some ("english".toList) } : DocMetadata) false
    rfl (by decide) rfl).2.1 rfl

/-! Lemmas about comment-span removal. -/

theorem scanClose_length : ∀ (s r : List Char),
    scanClose s = some r → r.length + 2 ≤ s.length := by
  intro s
  induction s with
  | nil => intro r h; simp [scanClose] at h
  | cons c rest ih =>
    intro r h
    by_cases h1 : c = ']' ∧ rest.head? = some ']'
    · simp only [scanClose, if_pos h1, Option.some.injEq] at h
      subst h
      obtain ⟨-, h2⟩ := h1
      cases rest with
      | nil => simp at h2
      | cons d rt => simp
    · by_cases h2 : c = '\n'
      · simp [scanClose, h1, h2] at h
      · simp only [scanClose, if_neg h1, if_neg h2] at h
        have := ih r h
        simp only [List.length_cons]
        omega

/-- When the span body contains no `]]`, no newline, and does not end in `]`,
the non-greedy close scan stops exactly at the closing `]]`. -/
theorem scanClose_exact (mid : List Char) :
    ∀ (t : List Char), containsSeq [']', ']'] mid = false → '\n' ∉ mid →
      ¬ mid.getLast? = some ']' →
      scanClose (mid ++ ']' :: ']' :: t) = some t := by
  induction mid with
  | nil =>
    intro t _ _ _
    simp [scanClose]
  | cons c mid ih =>
    intro t h3 h4 h5
    have hnc : ¬ c = '\n' := fun h => h4 (h ▸ List.mem_cons_self _ _)
    have hcond : ¬ (c = ']' ∧ (mid ++ ']' :: ']' :: t).head? = some ']') := by
      rintro ⟨rfl, hh⟩
      cases mid with
      | nil => exact h5 (by simp)
      | cons d m2 =>
        simp at hh
        subst hh
        simp [containsSeq, List.isPrefixOf] at h3
    rw [List.cons_append, scanClose, if_neg hcond, if_neg hnc]
    apply ih
    · simp [containsSeq] at h3
      exact h3.2
    · exact fun hm => h4 (List.mem_cons_of_mem _ hm)
    · cases mid with
      | nil => simp
      | cons d m2 =>
        rw [List.getLast?_cons_cons] at h5
        exact h5

theorem removeCommentsFuel_step (fuel : Nat) (c : Char) (rest : List Char)
    (h : ¬ (c = '[' ∧ rest.head? = some '[')) :
    removeCommentsFuel (fuel + 1) (c :: rest) = c :: removeCommentsFuel fuel rest := by
  simp [removeCommentsFuel, h]

theorem removeCommentsFuel_open (fuel : Nat) (rest rem : List Char)
    (h : scanClose rest = some rem) :
    removeCommentsFuel (fuel + 1) ('[' :: '[' :: rest) = removeCommentsFuel fuel rem := by
  simp [removeCommentsFuel, h]

theorem removeCommentsFuel_open_none (fuel : Nat) (rest : List Char)
    (h : scanClose rest = none) :
    removeCommentsFuel (fuel + 1) ('[' :: '[' :: rest)
      = '[' :: removeCommentsFuel fuel ('[' :: rest) := by
  simp [removeCommentsFuel, h]

/-- The comment scan consumes at least one character per fuel unit, so any
fuel of at least the text length computes the same result. -/
theorem removeCommentsFuel_congr : ∀ (f1 f2 : Nat) (s : List Char),
    s.length ≤ f1 → s.length ≤ f2 →
    removeCommentsFuel f1 s = removeCommentsFuel f2 s := by
  intro f1
  induction f1 with
  | zero =>
    intro f2 s h1 _
    have : s = [] := List.length_eq_zero.mp (by omega)
    subst this
    cases f2 <;> simp [removeCommentsFuel]
  | succ f1 ih =>
    intro f2 s h1 h2
    cases s with
    | nil => cases f2 <;> simp [removeCommentsFuel]
    | cons c rest =>
      cases f2 with
      | zero => simp at h2
      | succ f2 =>
        by_cases hcond : c = '[' ∧ rest.head? = some '['
        · obtain ⟨rfl, hh⟩ := hcond
          cases rest with
          | nil => simp at hh
          | cons d rt =>
            simp only [List.head?_cons, Option.some.injEq] at hh
            subst hh
            cases hscan : scanClose rt with
            | none =>
              rw [removeCommentsFuel_open_none f1 rt hscan,
                removeCommentsFuel_open_none f2 rt hscan]
              rw [ih f2 ('[' :: rt) (by simp at h1 ⊢; omega) (by simp at h2 ⊢; omega)]
            | some rem =>
              rw [removeCommentsFuel_open f1 rt rem hscan,
                removeCommentsFuel_open f2 rt rem hscan]
              have := scanClose_length rt rem hscan
              rw [ih f2 rem (by simp at h1 ⊢; omega) (by simp at h2 ⊢; omega)]
        · rw [removeCommentsFuel_step f1 c rest hcond,
            removeCommentsFuel_step f2 c rest hcond]
          rw [ih f2 rest (by simp at h1 ⊢; omega) (by simp at h2 ⊢; omega)]

/-- The comment scan copies verbatim any prefix in which no `[[` occurs and
which does not end in `[`. -/
theorem removeCommentsFuel_skip : ∀ (pre : List Char) (f : Nat) (t : List Char),
    containsSeq ['[', '['] pre = false → ¬ pre.getLast? = some '[' →
    removeCommentsFuel (pre.length + f) (pre ++ t) = pre ++ removeCommentsFuel f t := by
  intro pre
  induction pre with
  | nil => intro f t _ _; simp
  | cons c pre ih =>
    intro f t h1 h2
    have hcond : ¬ (c = '[' ∧ (pre ++ t).head? = some '[') := by
      rintro ⟨rfl, hh⟩
      cases pre with
      | nil => exact h2 (by simp)
      | cons d m2 =>
        simp at hh
        subst hh
        simp [containsSeq, List.isPrefixOf] at h1
    rw [List.cons_append, show (c :: pre).length + f = (pre.length + f) + 1 from by
      simp; omega]
    rw [removeCommentsFuel_step _ _ _ hcond]
    rw [ih f t (by simp [containsSeq] at h1; exact h1.2)
      (by
        cases pre with
        | nil => simp
        | cons d m2 =>
          rw [List.getLast?_cons_cons] at h2
          exact h2)]
    rfl

/-- Claim C3, counterexample to the claim as stated: a newline inside the
span defeats the match (Python `.` does not match a newline), so the span of
`t` / `[[a` / `b]]` survives into the body untouched; and when the span body
ends in `]`, the non-greedy match stops two characters early and leaves the
final `]` of the span in the output (`t` / `[[a]]]` leaves `]`). -/
theorem C3_counterexample :
    (convert_simplified_markdown_to_latex ("t\n[[a\nb]]".toList)).1.2 = "[[a\nb]]".toList
    ∧ (convert_simplified_markdown_to_latex ("t\n[[a]]]".toList)).1.2 = "]".toList := by
  decide

/-- Claim C3, amended: a span `[[anything]]` is removed entirely, including
its delimiters, provided `anything` contains no `]]`, contains no newline,
and does not end in `]`, and provided its `[[` is the opener the scan
reaches: the text before the span contains no `[[` and does not end in `[`.
Under those conditions the output is the prefix verbatim followed by the
processed remainder. -/
theorem C3_theorem (pre mid post : List Char)
    (h1 : containsSeq ['[', '['] pre = false) (h2 : ¬ pre.getLast? = some '[')
    (h3 : containsSeq [']', ']'] mid = false) (h4 : '\n' ∉ mid)
    (h5 : ¬ mid.getLast? = some ']') :
    removeComments (pre ++ '[' :: '[' :: (mid ++ ']' :: ']' :: post))
      = pre ++ removeComments post := by
  unfold removeComments
  have hlen : (pre ++ '[' :: '[' :: (mid ++ ']' :: ']' :: post)).length
      = pre.length + (mid.length + post.length + 4) := by simp; omega
  rw [hlen, removeCommentsFuel_skip pre _ _ h1 h2]
  congr 1
  rw [show mid.length + post.length + 4 = (mid.length + post.length + 3) + 1 from by omega]
  rw [removeCommentsFuel_open _ _ post (scanClose_exact mid post h3 h4 h5)]
  exact removeCommentsFuel_congr _ _ post (by omega) le_rfl

/-- Claim C3 witness. -/
theorem C3_witness :
    removeComments (("x".toList) ++ '[' :: '[' :: (("a b".toList) ++ ']' :: ']' :: ("y".toList)))
      = "x".toList ++ removeComments ("y".toList) :=
  C3_theorem ("x".toList) ("a b".toList) ("y".toList)
    (by decide) (by decide) (by decide) (by decide) (by decide)

/-! Lemmas for relating the whole-text passes to the line structure: none of
them inserts or removes a newline, and none of their needles crosses a
newline, so the first line of the processed text is the processed first
line. -/

theorem replaceChar_split_nl (t : Char) (r : List Char) (ht : ¬ t = '\n')
    (A B : List Char) :
    replaceChar t r (A ++ '\n' :: B)
      = replaceChar t r A ++ '\n' :: replaceChar t r B := by
  induction A with
  | nil =>
    have hnt : ¬ ('\n' = t) := fun h => ht h.symm
    simp [replaceChar, hnt]
  | cons c A ih => by_cases hc : c = t <;> simp [replaceChar, hc, ih]

theorem replaceChar_not_mem (t : Char) (r s : List Char) (c : Char)
    (hs : c ∉ s) (hr : c ∉ r) : c ∉ replaceChar t r s := by
  induction s with
  | nil => simp [replaceChar]
  | cons a s ih =>
    have has : c ∉ s := fun h => hs (List.mem_cons_of_mem _ h)
    have hac : ¬ c = a := fun h => hs (h ▸ List.mem_cons_self _ _)
    by_cases ha : a = t
    · rw [replaceChar, if_pos ha]
      intro hmem
      rcases List.mem_append.mp hmem with h | h
      · exact hr h
      · exact ih has h
    · rw [replaceChar, if_neg ha]
      intro hmem
      rcases List.mem_cons.mp hmem with h | h
      · exact hac h
      · exact ih has h

theorem dashSub_match_eq (rest : List Char) :
    dashSub (' ' :: '-' :: ' ' :: rest) = ' ' :: '-' :: '-' :: ' ' :: dashSub rest := rfl

theorem dashSub_nomatch (c : Char) (rest : List Char)
    (h : ¬ (c = ' ' ∧ rest.take 2 = ['-', ' '])) :
    dashSub (c :: rest) = c :: dashSub rest := by
  rw [dashSub.eq_def]
  split
  · rename_i r heq
    injection heq with h1 h2
    exact absurd ⟨h1, by rw [h2]; rfl⟩ h
  · rename_i c2 rest2 hno heq
    injection heq with h1 h2
    rw [h1, h2]
  · rename_i heq
    simp at heq

theorem take2_append_nl (A1 B : List Char) (hA1 : '\n' ∉ A1) :
    (A1 ++ '\n' :: B).take 2 = ['-', ' '] ↔ A1.take 2 = ['-', ' '] := by
  match A1 with
  | [] => simp
  | [d] =>
    constructor
    · intro h
      simp at h
    · intro h
      simp at h
  | d :: e :: A3 => simp

theorem dashSub_split_nl : ∀ (n : Nat) (A B : List Char), A.length ≤ n → '\n' ∉ A →
    ∃ B2, dashSub (A ++ '\n' :: B) = dashSub A ++ '\n' :: B2 := by
  intro n
  induction n with
  | zero =>
    intro A B hlen hA
    have : A = [] := List.length_eq_zero.mp (by omega)
    subst this
    exact ⟨dashSub B, by rw [List.nil_append, dashSub_nomatch '\n' B (by simp)]; rfl⟩
  | succ n ih =>
    intro A B hlen hA
    cases A with
    | nil =>
      exact ⟨dashSub B, by rw [List.nil_append, dashSub_nomatch '\n' B (by simp)]; rfl⟩
    | cons c A1 =>
      have hA1 : '\n' ∉ A1 := fun h => hA (List.mem_cons_of_mem _ h)
      by_cases hm : c = ' ' ∧ A1.take 2 = ['-', ' ']
      · obtain ⟨rfl, htake⟩ := hm
        cases A1 with
        | nil => simp at htake
        | cons d A2 =>
        cases A2 with
        | nil => simp at htake
        | cons e A3 =>
          simp at htake
          obtain ⟨rfl, rfl⟩ := htake
          have hA3 : '\n' ∉ A3 := fun h => hA1 (by simp [h])
          obtain ⟨B2, hB2⟩ := ih A3 B (by simp at hlen ⊢; omega) hA3
          refine ⟨B2, ?_⟩
          rw [List.cons_append, List.cons_append, List.cons_append,
            dashSub_match_eq, dashSub_match_eq, hB2]
          simp
      · have hmc : ¬ (c = ' ' ∧ (A1 ++ '\n' :: B).take 2 = ['-', ' ']) := by
          rintro ⟨rfl, hc⟩
          exact hm ⟨rfl, (take2_append_nl A1 B hA1).mp hc⟩
        obtain ⟨B2, hB2⟩ := ih A1 B (by simp at hlen ⊢; omega) hA1
        refine ⟨B2, ?_⟩
        rw [List.cons_append, dashSub_nomatch c _ hmc, hB2, dashSub_nomatch c A1 hm]
        rfl

theorem dashSub_not_mem : ∀ (n : Nat) (A : List Char) (c : Char), A.length ≤ n →
    c ∉ A → ¬ c = ' ' → ¬ c = '-' → c ∉ dashSub A := by
  intro n
  induction n with
  | zero =>
    intro A c hlen _ _ _
    have : A = [] := List.length_eq_zero.mp (by omega)
    subst this
    simp [dashSub]
  | succ n ih =>
    intro A c hlen hA hsp hda
    cases A with
    | nil => simp [dashSub]
    | cons a A1 =>
      by_cases hm : a = ' ' ∧ A1.take 2 = ['-', ' ']
      · obtain ⟨rfl, htake⟩ := hm
        cases A1 with
        | nil => simp at htake
        | cons d A2 =>
        cases A2 with
        | nil => simp at htake
        | cons e A3 =>
          simp at htake
          obtain ⟨rfl, rfl⟩ := htake
          rw [dashSub_match_eq]
          intro hmem
          rcases List.mem_cons.mp hmem with h | hmem
          · exact hsp h
          rcases List.mem_cons.mp hmem with h | hmem
          · exact hda h
          rcases List.mem_cons.mp hmem with h | hmem
          · exact hda h
          rcases List.mem_cons.mp hmem with h | hmem
          · exact hsp h
          · exact ih A3 c (by simp at hlen ⊢; omega)
              (fun h => hA (by simp [h])) hsp hda hmem
      · rw [dashSub_nomatch a _ hm]
        intro hmem
        rcases List.mem_cons.mp hmem with h | hmem
        · exact hA (h ▸ List.mem_cons_self _ _)
        · exact ih A1 c (by simp at hlen ⊢; omega)
            (fun h => hA (List.mem_cons_of_mem _ h)) hsp hda hmem



theorem lineDashSub_match_eq (rest : List Char) :
    lineDashSub ('\n' :: '-' :: ' ' :: rest)
      = '\n' :: '-' :: '-' :: ' ' :: lineDashSub rest := rfl

theorem lineDashSub_nomatch (c : Char) (rest : List Char)
    (h : ¬ (c = '\n' ∧ rest.take 2 = ['-', ' '])) :
    lineDashSub (c :: rest) = c :: lineDashSub rest := by
  rw [lineDashSub.eq_def]
  split
  · rename_i r heq
    injection heq with h1 h2
    exact absurd ⟨h1, by rw [h2]; rfl⟩ h
  · rename_i c2 rest2 hno heq
    injection heq with h1 h2
    rw [h1, h2]
  · rename_i heq
    simp at heq

theorem lineDashSub_skip (A : List Char) (hA : '\n' ∉ A) :
    ∀ t, lineDashSub (A ++ t) = A ++ lineDashSub t := by
  induction A with
  | nil => intro t; rfl
  | cons c A ih =>
    intro t
    have hc : ¬ c = '\n' := fun h => hA (h ▸ List.mem_cons_self _ _)
    rw [List.cons_append, lineDashSub_nomatch c _ (fun hh => hc hh.1),
      ih (fun h => hA (List.mem_cons_of_mem _ h)) t]
    rfl

theorem lineDashSub_nl (B : List Char) :
    ∃ B2, lineDashSub ('\n' :: B) = '\n' :: B2 := by
  by_cases h : B.take 2 = ['-', ' ']
  · cases B with
    | nil => simp at h
    | cons d B2 =>
    cases B2 with
    | nil => simp at h
    | cons e B3 =>
      simp at h
      obtain ⟨rfl, rfl⟩ := h
      exact ⟨'-' :: '-' :: ' ' :: lineDashSub B3, lineDashSub_match_eq B3⟩
  · exact ⟨lineDashSub B, lineDashSub_nomatch '\n' B (fun hh => h hh.2)⟩

theorem spliceFirst_append (target : Char) (repl : List Char) (A : List Char)
    (hA : target ∉ A) :
    ∀ t, spliceFirst target repl (A ++ t)
      = (spliceFirst target repl t).map (fun x => A ++ x) := by
  induction A with
  | nil => intro t; simp
  | cons c A ih =>
    intro t
    have hc : ¬ c = target := fun h => hA (h ▸ List.mem_cons_self _ _)
    rw [List.cons_append, spliceFirst, if_neg hc,
      ih (fun h => hA (List.mem_cons_of_mem _ h)) t]
    cases spliceFirst target repl t <;> simp

theorem emphasisLoopFuel_append (A : List Char) (hA : '_' ∉ A) :
    ∀ (fuel : Nat) (t : List Char) (state : Bool),
      emphasisLoopFuel fuel (A ++ t) state
        = ⟨A ++ (emphasisLoopFuel fuel t state).text,
            (emphasisLoopFuel fuel t state).state,
            (emphasisLoopFuel fuel t state).npre,
            (emphasisLoopFuel fuel t state).npost⟩ := by
  intro fuel
  induction fuel with
  | zero => intro t state; simp [emphasisLoopFuel]
  | succ f ih =>
    intro t state
    cases state
    · cases h : spliceFirst '_' TEX_ITALIC_PRE_STR t with
      | none =>
        have h2 : spliceFirst '_' TEX_ITALIC_PRE_STR (A ++ t) = none := by
          rw [spliceFirst_append _ _ A hA t, h]
          rfl
        simp [emphasisLoopFuel, h, h2]
      | some s2 =>
        have h2 : spliceFirst '_' TEX_ITALIC_PRE_STR (A ++ t) = some (A ++ s2) := by
          rw [spliceFirst_append _ _ A hA t, h]
          rfl
        simp [emphasisLoopFuel, h, h2, ih]
    · cases h : spliceFirst '_' TEX_ITALIC_POST_STR t with
      | none =>
        have h2 : spliceFirst '_' TEX_ITALIC_POST_STR (A ++ t) = none := by
          rw [spliceFirst_append _ _ A hA t, h]
          rfl
        simp [emphasisLoopFuel, h, h2]
      | some s2 =>
        have h2 : spliceFirst '_' TEX_ITALIC_POST_STR (A ++ t) = some (A ++ s2) := by
          rw [spliceFirst_append _ _ A hA t, h]
          rfl
        simp [emphasisLoopFuel, h, h2, ih]

theorem emphasisLoop_append (A t : List Char) (state : Bool) (hA : '_' ∉ A) :
    emphasisLoop (A ++ t) state
      = ⟨A ++ (emphasisLoop t state).text, (emphasisLoop t state).state,
          (emphasisLoop t state).npre, (emphasisLoop t state).npost⟩ := by
  unfold emphasisLoop
  rw [show (A ++ t).count '_' = t.count '_' from by
    simp [List.count_append, List.count_eq_zero.mpr hA]]
  exact emphasisLoopFuel_append A hA _ t state

theorem splitOnNl_append_nl (A : List Char) (hA : '\n' ∉ A) :
    ∀ B, splitOnNl (A ++ '\n' :: B) = A :: splitOnNl B := by
  induction A with
  | nil => intro B; simp [splitOnNl]
  | cons c A ih =>
    intro B
    have hc : ¬ c = '\n' := fun h => hA (h ▸ List.mem_cons_self _ _)
    rw [List.cons_append, splitOnNl_cons_of_ne c _ hc,
      ih (fun h => hA (List.mem_cons_of_mem _ h)) B]
    simp

theorem headD_splitlines (A B : List Char) (hA : '\n' ∉ A) :
    (splitlines (A ++ '\n' :: B)).headD [] = A := by
  have h1 := splitOnNl_append_nl A hA B
  by_cases hcond : (splitOnNl (A ++ '\n' :: B)).getLast?.getD [] = []
  · have heq : splitlines (A ++ '\n' :: B) = (splitOnNl (A ++ '\n' :: B)).dropLast := by
      simp [splitlines, hcond]
    rw [heq, h1]
    cases hB : splitOnNl B with
    | nil => exact absurd hB (splitOnNl_ne_nil B)
    | cons x xs => simp
  · have heq : splitlines (A ++ '\n' :: B) = splitOnNl (A ++ '\n' :: B) := by
      simp [splitlines, hcond]
    rw [heq, h1]
    simp

theorem containsSeq_eq_false (p : Char) (ps A : List Char) (hp : p ∉ A) :
    containsSeq (p :: ps) A = false := by
  induction A with
  | nil => simp [containsSeq]
  | cons c rest ih =>
    have hc : ¬ p = c := fun h => hp (h ▸ List.mem_cons_self _ _)
    simp [containsSeq, List.isPrefixOf, hc,
      ih (fun h => hp (List.mem_cons_of_mem _ h))]



/-- Claim C6, amended: the title is the first raw line transformed by all the
whole-text passes; when the first line contains no underscore and no `[`,
those passes reduce to exactly the literal character-escaping substitutions
(`"`, ` - `, `&`, `#`), so the title is the first line altered only by
character escaping; the body is the rewritten remainder. -/
theorem C6_theorem (L R : List Char)
    (h1 : '\n' ∉ L) (h2 : '_' ∉ L) (h3 : '[' ∉ L) :
    (convert_simplified_markdown_to_latex (L ++ '\n' :: R)).1.1 = escapes4 L := by
  have hn1 : '\n' ∉ replaceChar '"' ("\x27\x27".toList) L :=
    replaceChar_not_mem _ _ _ _ h1 (by decide)
  obtain ⟨B2, hB2⟩ := dashSub_split_nl (replaceChar '"' ("\x27\x27".toList) L).length
    (replaceChar '"' ("\x27\x27".toList) L) (replaceChar '"' ("\x27\x27".toList) R)
    le_rfl hn1
  have hn2 : '\n' ∉ dashSub (replaceChar '"' ("\x27\x27".toList) L) :=
    dashSub_not_mem _ _ _ le_rfl hn1 (by decide) (by decide)
  have hu1 : '_' ∉ replaceChar '"' ("\x27\x27".toList) L :=
    replaceChar_not_mem _ _ _ _ h2 (by decide)
  have hu2 : '_' ∉ dashSub (replaceChar '"' ("\x27\x27".toList) L) :=
    dashSub_not_mem _ _ _ le_rfl hu1 (by decide) (by decide)
  have hb1 : '[' ∉ replaceChar '"' ("\x27\x27".toList) L :=
    replaceChar_not_mem _ _ _ _ h3 (by decide)
  have hb2 : '[' ∉ dashSub (replaceChar '"' ("\x27\x27".toList) L) :=
    dashSub_not_mem _ _ _ le_rfl hb1 (by decide) (by decide)
  have hnE : '\n' ∉ escapes4 L :=
    replaceChar_not_mem _ _ _ _ (replaceChar_not_mem _ _ _ _ hn2 (by decide)) (by decide)
  have huE : '_' ∉ escapes4 L :=
    replaceChar_not_mem _ _ _ _ (replaceChar_not_mem _ _ _ _ hu2 (by decide)) (by decide)
  have hbE : '[' ∉ escapes4 L :=
    replaceChar_not_mem _ _ _ _ (replaceChar_not_mem _ _ _ _ hb2 (by decide)) (by decide)
  have hesc : escapes4 (L ++ '\n' :: R)
      = escapes4 L ++ '\n'
          :: replaceChar '#' ("\\#".toList) (replaceChar '&' ("\\&".toList) B2) := by
    show replaceChar '#' ("\\#".toList)
        (replaceChar '&' ("\\&".toList)
          (dashSub (replaceChar '"' ("\x27\x27".toList) (L ++ '\n' :: R))))
      = _
    rw [replaceChar_split_nl '"' _ (by decide) L R, hB2,
      replaceChar_split_nl '&' _ (by decide), replaceChar_split_nl '#' _ (by decide)]
    rfl
  have hrc : removeComments (escapes4 (L ++ '\n' :: R))
      = escapes4 L ++ '\n' :: removeComments
          (replaceChar '#' ("\\#".toList) (replaceChar '&' ("\\&".toList) B2)) := by
    rw [hesc]
    unfold removeComments
    rw [show (escapes4 L ++ '\n'
        :: replaceChar '#' ("\\#".toList) (replaceChar '&' ("\\&".toList) B2)).length
      = (escapes4 L).length
        + ((replaceChar '#' ("\\#".toList) (replaceChar '&' ("\\&".toList) B2)).length + 1)
      from by simp]
    rw [removeCommentsFuel_skip (escapes4 L) _ _
      (containsSeq_eq_false '[' ['['] _ hbE)
      (fun h => hbE (List.mem_of_getLast?_eq_some h))]
    congr 1
  obtain ⟨B6, hB6⟩ := lineDashSub_nl (removeComments
    (replaceChar '#' ("\\#".toList) (replaceChar '&' ("\\&".toList) B2)))
  have hpe : preEmphasisText (L ++ '\n' :: R) = escapes4 L ++ '\n' :: B6 := by
    show lineDashSub (removeComments (escapes4 (L ++ '\n' :: R))) = _
    rw [hrc, lineDashSub_skip _ hnE, hB6]
  have hel := emphasisLoop_append (escapes4 L) ('\n' :: B6) false huE
  have hel2 : (emphasisLoop ('\n' :: B6) false).text
      = '\n' :: (emphasisLoop B6 false).text := by
    have h := emphasisLoop_append ['\n'] B6 false (by decide)
    rw [show (['\n'] ++ B6 : List Char) = '\n' :: B6 from rfl] at h
    rw [h]
    rfl
  show (splitlines (emphasisLoop (preEmphasisText (L ++ '\n' :: R)) false).text).headD []
      = escapes4 L
  rw [hpe, hel]
  dsimp only
  rw [hel2]
  exact headD_splitlines _ _ hnE



/-- Claim C6, counterexample to the claim as stated: the emphasis pass runs
on the whole text before the title is split off, so the title of chapter
`_t_` / `b` is `\emph{t}`, not the character-escaped first line `_t_`. -/
theorem C6_counterexample :
    (convert_simplified_markdown_to_latex ("_t_\nb".toList)).1.1 ≠ escapes4 ("_t_".toList)
    ∧ (convert_simplified_markdown_to_latex ("_t_\nb".toList)).1.1
      = "\\emph\x7bt\x7d".toList := by
  decide

/-- Claim C6 witness. -/
theorem C6_witness :
    (convert_simplified_markdown_to_latex
        (("a \"b\" - c&#".toList) ++ '\n' :: ("rest".toList))).1.1
      = escapes4 ("a \"b\" - c&#".toList) :=
  C6_theorem ("a \"b\" - c&#".toList) ("rest".toList) (by decide) (by decide) (by decide)

end Txt2pdf
